import Mathlib

/-!
Verification development for the psvc service framework.

This file gives a shallow embedding, in Lean 4, of the parts of the psvc
sources that the checked properties speak about:

* `src/psvc/utils/version.py` (`parse_version`, `compare_versions`),
* `src/psvc/utils/checksum.py` (`calculate_checksum`, `verify_checksum`),
* `src/psvc/network.py` (`Socket.send`, `Socket._send`, `Socket._data_handler`,
  `Socket.recv_file`),
* `src/psvc/cmd.py` (`Commander.call`, `Commander._execute`,
  `Commander._receive`),
* `src/psvc/release.py` (`Releaser.get_version_list`,
  `Releaser.get_latest_version`, `Releaser._cmd_request_versions`,
  `Releaser._cmd_download_update`, `Updater.check_update`,
  `Updater._cmd_download_start`),
* `src/psvc/main.py` (`Service._service`).

Pure functions become Lean functions; the stateful receive/dispatch loops
become explicit state-passing interpreters over inbound-frame lists; Python
exceptions become `Except`/`Option` results.  Machine integers are `Nat`/`Int`
(the 4-byte frame header is modelled with explicit base-256 arithmetic).
Library primitives that the code calls (hash digests) are taken as explicit
function parameters.
-/

namespace PSVC

/-! ## utils/version.py -/

/-- Model of Python `str.split('.')` on a character list: `splitOnDot []`
is `[[]]`, matching `''.split('.') == ['']`. -/
def splitOnDot : List Char → List (List Char)
  | [] => [[]]
  | c :: rest =>
    if c = '.' then [] :: splitOnDot rest
    else
      match splitOnDot rest with
      | h :: t => (c :: h) :: t
      | [] => [[c]]

/-- A nonempty run of ASCII decimal digits, i.e. what `\d+` matches in the
version regexes (Unicode digit classes are out of the model). -/
def isDigits (l : List Char) : Bool :=
  !l.isEmpty && l.all (fun c => c.isDigit)

/-- Numeric value of a decimal digit run, the model of Python `int()` on the
regex groups. -/
def natOfDigits (l : List Char) : Nat :=
  l.foldl (fun acc c => acc * 10 + (c.toNat - '0'.toNat)) 0

/-- Python `re` `$` (without `re.MULTILINE`) matches at the end of the string
or just before one final newline.  Both version regexes are anchored with
`$`, so matching against `s` is matching the fully-anchored pattern against
`s` with one trailing newline removed. -/
def stripDollarNewline (l : List Char) : List Char :=
  if l.getLast? = some '\n' then l.dropLast else l

/-- Embedding of `parse_version` (src/psvc/utils/version.py, lines 7-40):
try `^(\d+)\.(\d+)\.(\d+)$`, then `^(\d+)\.(\d+)$` with patch 0, else
raise `ValueError`. -/
def parse_version (s : String) : Except String (Nat × Nat × Nat) :=
  match splitOnDot (stripDollarNewline s.toList) with
  | [a, b, c] =>
    if isDigits a && isDigits b && isDigits c then
      .ok (natOfDigits a, natOfDigits b, natOfDigits c)
    else .error "Invalid version format"
  | [a, b] =>
    if isDigits a && isDigits b then
      .ok (natOfDigits a, natOfDigits b, 0)
    else .error "Invalid version format"
  | _ => .error "Invalid version format"

/-- Python tuple comparison `p < q` on 3-tuples (lexicographic). -/
def verLt (p q : Nat × Nat × Nat) : Bool :=
  p.1 < q.1 || (p.1 = q.1 && (p.2.1 < q.2.1 || (p.2.1 = q.2.1 && p.2.2 < q.2.2)))

/-- Embedding of `compare_versions` (src/psvc/utils/version.py, lines 52-73):
parse both, return 1 / -1 / 0 by tuple comparison. -/
def compare_versions (v1 v2 : String) : Except String Int := do
  let p1 ← parse_version v1
  let p2 ← parse_version v2
  if verLt p2 p1 then pure 1
  else if verLt p1 p2 then pure (-1)
  else pure 0

/-- Spec-side lexicographic order on version tuples, as a proposition. -/
def VerLexLt (p q : Nat × Nat × Nat) : Prop :=
  p.1 < q.1 ∨ (p.1 = q.1 ∧ (p.2.1 < q.2.1 ∨ (p.2.1 = q.2.1 ∧ p.2.2 < q.2.2)))

/-- Spec-side statement of the string shape `MAJOR.MINOR.PATCH` (three
nonempty digit runs joined by dots). -/
def VersionForm3 (t : List Char) : Prop :=
  ∃ a b c, isDigits a ∧ isDigits b ∧ isDigits c ∧ t = a ++ '.' :: (b ++ '.' :: c)

/-- Spec-side statement of the string shape `MAJOR.MINOR`. -/
def VersionForm2 (t : List Char) : Prop :=
  ∃ a b, isDigits a ∧ isDigits b ∧ t = a ++ '.' :: b

/-- The strings `parse_version` actually accepts: a `MAJOR.MINOR[.PATCH]`
digit form, optionally followed by one trailing newline (the Python `$`
anchor admits it). -/
def AcceptedVersionString (s : String) : Prop :=
  ∃ base tail, s.toList = base ++ tail ∧ (tail = [] ∨ tail = ['\n']) ∧
    (VersionForm3 base ∨ VersionForm2 base)

theorem verLt_iff (p q : Nat × Nat × Nat) : verLt p q = true ↔ VerLexLt p q := by
  unfold verLt VerLexLt
  simp [Bool.or_eq_true, Bool.and_eq_true, decide_eq_true_eq]

theorem verLt_trichotomy (p q : Nat × Nat × Nat)
    (h1 : verLt p q = false) (h2 : verLt q p = false) : p = q := by
  have n1 : ¬ VerLexLt p q := fun h => by
    rw [(verLt_iff p q).mpr h] at h1; exact absurd h1 (by simp)
  have n2 : ¬ VerLexLt q p := fun h => by
    rw [(verLt_iff q p).mpr h] at h2; exact absurd h2 (by simp)
  obtain ⟨p1, p2, p3⟩ := p
  obtain ⟨q1, q2, q3⟩ := q
  unfold VerLexLt at n1 n2
  simp only [Prod.mk.injEq] at n1 n2 ⊢
  omega

theorem splitOnDot_ne_nil (l : List Char) : splitOnDot l ≠ [] := by
  cases l with
  | nil => simp [splitOnDot]
  | cons c rest =>
    unfold splitOnDot
    by_cases h : c = '.'
    · simp [h]
    · simp only [h, if_false]
      cases splitOnDot rest <;> simp

theorem splitOnDot_no_dot (l : List Char) (h : '.' ∉ l) : splitOnDot l = [l] := by
  induction l with
  | nil => rfl
  | cons c rest ih =>
    have hc : c ≠ '.' := fun hc => h (hc ▸ List.mem_cons_self c rest)
    have hr : '.' ∉ rest := fun hr => h (List.mem_cons_of_mem c hr)
    unfold splitOnDot
    simp [hc, ih hr]

theorem splitOnDot_cons (c : Char) (rest : List Char) :
    splitOnDot (c :: rest) =
      if c = '.' then [] :: splitOnDot rest
      else match splitOnDot rest with
           | h :: t => (c :: h) :: t
           | [] => [[c]] := rfl

theorem splitOnDot_append (a r : List Char) (h : '.' ∉ a) :
    splitOnDot (a ++ '.' :: r) = a :: splitOnDot r := by
  induction a with
  | nil => simp [splitOnDot]
  | cons c rest ih =>
    have hc : c ≠ '.' := fun hc => h (hc ▸ List.mem_cons_self c rest)
    have hr : '.' ∉ rest := fun hr => h (List.mem_cons_of_mem c hr)
    rw [List.cons_append, splitOnDot_cons, if_neg hc, ih hr]

/-- Reassembling the split pieces with dots gives back the input. -/
def joinDots : List (List Char) → List Char
  | [] => []
  | [a] => a
  | a :: rest => a ++ '.' :: joinDots rest

theorem joinDots_splitOnDot (l : List Char) : joinDots (splitOnDot l) = l := by
  induction l with
  | nil => rfl
  | cons c rest ih =>
    unfold splitOnDot
    by_cases h : c = '.'
    · subst h
      have := splitOnDot_ne_nil rest
      cases hs : splitOnDot rest with
      | nil => exact absurd hs this
      | cons x xs =>
        rw [hs] at ih
        simp [joinDots, ih]
    · simp only [h, if_false]
      have := splitOnDot_ne_nil rest
      cases hs : splitOnDot rest with
      | nil => exact absurd hs this
      | cons x xs =>
        rw [hs] at ih
        cases xs with
        | nil => simpa [joinDots] using congrArg (c :: ·) ih
        | cons y ys => simpa [joinDots] using congrArg (c :: ·) ih

theorem digits_no_dot {l : List Char} (h : isDigits l = true) : '.' ∉ l := by
  intro hm
  unfold isDigits at h
  simp only [Bool.and_eq_true, List.all_eq_true] at h
  have := h.2 '.' hm
  simp [Char.isDigit] at this

theorem digits_no_newline {l : List Char} (h : isDigits l = true) : '\n' ∉ l := by
  intro hm
  unfold isDigits at h
  simp only [Bool.and_eq_true, List.all_eq_true] at h
  have := h.2 '\n' hm
  simp [Char.isDigit] at this

theorem digits_ne_nil {l : List Char} (h : isDigits l = true) : l ≠ [] := by
  intro hm
  subst hm
  simp [isDigits] at h

theorem getLast?_mem_of_eq {l : List Char} {a : Char} (h : l.getLast? = some a) :
    a ∈ l := by
  induction l with
  | nil => simp at h
  | cons x xs ih =>
    cases xs with
    | nil => simp at h; simp [h]
    | cons y ys =>
      rw [List.getLast?_cons_cons] at h
      exact List.mem_cons_of_mem x (ih h)

theorem stripDollarNewline_of_no_newline {l : List Char} (h : '\n' ∉ l) :
    stripDollarNewline l = l := by
  unfold stripDollarNewline
  cases hg : l.getLast? with
  | none => simp
  | some c =>
    by_cases hc : c = '\n'
    · exact absurd (getLast?_mem_of_eq hg) (hc ▸ h)
    · simp [hc]

theorem stripDollarNewline_concat_newline (l : List Char) :
    stripDollarNewline (l ++ ['\n']) = l := by
  unfold stripDollarNewline
  simp

theorem form_no_newline {t : List Char} (h : VersionForm3 t ∨ VersionForm2 t) :
    '\n' ∉ t := by
  intro hm
  rcases h with ⟨a, b, c, ha, hb, hc, ht⟩ | ⟨a, b, ha, hb, ht⟩
  · subst ht
    simp only [List.mem_append, List.mem_cons] at hm
    rcases hm with h1 | h1 | h1 | h1 | h1
    · exact digits_no_newline ha h1
    · simp at h1
    · exact digits_no_newline hb h1
    · simp at h1
    · exact digits_no_newline hc h1
  · subst ht
    simp only [List.mem_append, List.mem_cons] at hm
    rcases hm with h1 | h1 | h1
    · exact digits_no_newline ha h1
    · simp at h1
    · exact digits_no_newline hb h1

theorem splitOnDot_form3 {a b c : List Char}
    (ha : isDigits a = true) (hb : isDigits b = true) (hc : isDigits c = true) :
    splitOnDot (a ++ '.' :: (b ++ '.' :: c)) = [a, b, c] := by
  rw [splitOnDot_append a _ (digits_no_dot ha),
      splitOnDot_append b _ (digits_no_dot hb),
      splitOnDot_no_dot c (digits_no_dot hc)]

theorem splitOnDot_form2 {a b : List Char}
    (ha : isDigits a = true) (hb : isDigits b = true) :
    splitOnDot (a ++ '.' :: b) = [a, b] := by
  rw [splitOnDot_append a _ (digits_no_dot ha),
      splitOnDot_no_dot b (digits_no_dot hb)]

theorem strip_of_accepted {s : String} {base tail : List Char}
    (hs : s.toList = base ++ tail) (htail : tail = [] ∨ tail = ['\n'])
    (hform : VersionForm3 base ∨ VersionForm2 base) :
    stripDollarNewline s.toList = base := by
  rcases htail with h | h
  · subst h
    rw [hs, List.append_nil]
    exact stripDollarNewline_of_no_newline (form_no_newline hform)
  · subst h
    rw [hs]
    exact stripDollarNewline_concat_newline base

theorem parse_version_of_form3 {s : String} {base tail a b c : List Char}
    (hs : s.toList = base ++ tail) (htail : tail = [] ∨ tail = ['\n'])
    (hbase : base = a ++ '.' :: (b ++ '.' :: c))
    (ha : isDigits a = true) (hb : isDigits b = true) (hc : isDigits c = true) :
    parse_version s = .ok (natOfDigits a, natOfDigits b, natOfDigits c) := by
  have hstrip : stripDollarNewline s.toList = base :=
    strip_of_accepted hs htail (Or.inl ⟨a, b, c, ha, hb, hc, hbase⟩)
  unfold parse_version
  rw [hstrip, hbase, splitOnDot_form3 ha hb hc]
  dsimp only
  rw [ha, hb, hc]
  rfl

theorem parse_version_of_form2 {s : String} {base tail a b : List Char}
    (hs : s.toList = base ++ tail) (htail : tail = [] ∨ tail = ['\n'])
    (hbase : base = a ++ '.' :: b)
    (ha : isDigits a = true) (hb : isDigits b = true) :
    parse_version s = .ok (natOfDigits a, natOfDigits b, 0) := by
  have hstrip : stripDollarNewline s.toList = base :=
    strip_of_accepted hs htail (Or.inr ⟨a, b, ha, hb, hbase⟩)
  unfold parse_version
  rw [hstrip, hbase, splitOnDot_form2 ha hb]
  dsimp only
  rw [ha, hb]
  rfl

theorem accepted_of_parse_ok {s : String} {v : Nat × Nat × Nat}
    (h : parse_version s = .ok v) : AcceptedVersionString s := by
  have hform : VersionForm3 (stripDollarNewline s.toList) ∨
      VersionForm2 (stripDollarNewline s.toList) := by
    have hjoin := joinDots_splitOnDot (stripDollarNewline s.toList)
    unfold parse_version at h
    cases hsd : splitOnDot (stripDollarNewline s.toList) with
    | nil => rw [hsd] at h; exact absurd h (by simp)
    | cons x xs =>
      rw [hsd] at h hjoin
      cases xs with
      | nil => exact absurd h (by simp)
      | cons y ys =>
        cases ys with
        | nil =>
          dsimp only at h
          split_ifs at h with hd
          rw [Bool.and_eq_true] at hd
          exact Or.inr ⟨x, y, hd.1, hd.2, by rw [← hjoin]; rfl⟩
        | cons z zs =>
          cases zs with
          | nil =>
            dsimp only at h
            split_ifs at h with hd
            rw [Bool.and_eq_true, Bool.and_eq_true] at hd
            exact Or.inl ⟨x, y, z, hd.1.1, hd.1.2, hd.2, by rw [← hjoin]; rfl⟩
          | cons w ws => exact absurd h (by simp)
  have hsplit : s.toList = stripDollarNewline s.toList ++ [] ∨
      s.toList = stripDollarNewline s.toList ++ ['\n'] := by
    unfold stripDollarNewline
    cases hg : s.toList.getLast? with
    | none => simp
    | some c =>
      by_cases hc : c = '\n'
      · subst hc
        simp only [if_pos rfl]
        exact Or.inr (List.dropLast_append_getLast? _ hg).symm
      · simp [hc]
  rcases hsplit with h1 | h1
  · exact ⟨_, [], h1, Or.inl rfl, hform⟩
  · exact ⟨_, ['\n'], h1, Or.inr rfl, hform⟩

theorem verLt_irrefl (p : Nat × Nat × Nat) : verLt p p = false := by
  unfold verLt
  simp

theorem verLt_asymm {p q : Nat × Nat × Nat} (h : verLt p q = true) :
    verLt q p = false := by
  cases hq : verLt q p with
  | false => rfl
  | true =>
    have h1 := (verLt_iff p q).mp h
    have h2 := (verLt_iff q p).mp hq
    obtain ⟨p1, p2, p3⟩ := p
    obtain ⟨q1, q2, q3⟩ := q
    unfold VerLexLt at h1 h2
    simp only at h1 h2
    omega

theorem compare_versions_eq {v1 v2 : String} {p1 p2 : Nat × Nat × Nat}
    (h1 : parse_version v1 = .ok p1) (h2 : parse_version v2 = .ok p2) :
    compare_versions v1 v2 =
      .ok (if verLt p2 p1 then 1 else if verLt p1 p2 then -1 else 0) := by
  unfold compare_versions
  rw [h1, h2]
  show (if verLt p2 p1 then pure 1 else if verLt p1 p2 then pure (-1) else pure 0 :
      Except String Int) =
    .ok (if verLt p2 p1 then 1 else if verLt p1 p2 then -1 else 0)
  cases hc : verLt p2 p1 <;> cases hd : verLt p1 p2 <;> rfl

theorem compare_versions_characterization {v1 v2 : String}
    {p1 p2 : Nat × Nat × Nat}
    (h1 : parse_version v1 = .ok p1) (h2 : parse_version v2 = .ok p2) :
    (compare_versions v1 v2 = .ok 1 ↔ VerLexLt p2 p1) ∧
    (compare_versions v1 v2 = .ok (-1) ↔ VerLexLt p1 p2) ∧
    (compare_versions v1 v2 = .ok 0 ↔ p1 = p2) := by
  cases hc : verLt p2 p1 with
  | true =>
    have hval : compare_versions v1 v2 = .ok 1 := by
      rw [compare_versions_eq h1 h2, hc]; rfl
    have hba : verLt p1 p2 = false := verLt_asymm hc
    rw [hval]
    refine ⟨⟨fun _ => (verLt_iff _ _).mp hc, fun _ => rfl⟩, ⟨?_, ?_⟩, ⟨?_, ?_⟩⟩
    · intro h; rw [Except.ok.injEq] at h; omega
    · intro h; rw [(verLt_iff p1 p2).mpr h] at hba; exact absurd hba (by simp)
    · intro h; rw [Except.ok.injEq] at h; omega
    · intro h; subst h; rw [verLt_irrefl] at hc; exact absurd hc (by simp)
  | false =>
    cases hd : verLt p1 p2 with
    | true =>
      have hval : compare_versions v1 v2 = .ok (-1) := by
        rw [compare_versions_eq h1 h2, hc, hd]; rfl
      rw [hval]
      refine ⟨⟨?_, ?_⟩, ⟨fun _ => (verLt_iff _ _).mp hd, fun _ => rfl⟩, ⟨?_, ?_⟩⟩
      · intro h; rw [Except.ok.injEq] at h; omega
      · intro h; rw [(verLt_iff p2 p1).mpr h] at hc; exact absurd hc (by simp)
      · intro h; rw [Except.ok.injEq] at h; omega
      · intro h; subst h; rw [verLt_irrefl] at hd; exact absurd hd (by simp)
    | false =>
      have heq : p1 = p2 := verLt_trichotomy p1 p2 hd hc
      have hval : compare_versions v1 v2 = .ok 0 := by
        rw [compare_versions_eq h1 h2, hc, hd]; rfl
      rw [hval]
      refine ⟨⟨?_, ?_⟩, ⟨?_, ?_⟩, ⟨fun _ => heq, fun _ => rfl⟩⟩
      · intro h; rw [Except.ok.injEq] at h; omega
      · intro h; rw [(verLt_iff p2 p1).mpr h] at hc; exact absurd hc (by simp)
      · intro h; rw [Except.ok.injEq] at h; omega
      · intro h; rw [(verLt_iff p1 p2).mpr h] at hd; exact absurd hd (by simp)

theorem verLt_zero_of_ne {p : Nat × Nat × Nat} (h : p ≠ (0, 0, 0)) :
    verLt (0, 0, 0) p = true := by
  obtain ⟨p1, p2, p3⟩ := p
  apply (verLt_iff _ _).mpr
  show 0 < p1 ∨ (0 = p1 ∧ (0 < p2 ∨ (0 = p2 ∧ 0 < p3)))
  simp only [ne_eq, Prod.mk.injEq] at h
  omega

theorem verLt_to_zero (p : Nat × Nat × Nat) : verLt p (0, 0, 0) = false := by
  cases hv : verLt p (0, 0, 0) with
  | false => rfl
  | true =>
    obtain ⟨p1, p2, p3⟩ := p
    have h2 : p1 < 0 ∨ (p1 = 0 ∧ (p2 < 0 ∨ (p2 = 0 ∧ p3 < 0))) :=
      (verLt_iff _ _).mp hv
    exact absurd h2 (by omega)

/-- Claim C9 counterexample: `parse_version "1.0.0\n"` succeeds with
`(1, 0, 0)` because both Python regexes are anchored with `$`, which also
matches just before one final newline; yet `"1.0.0\n"` is not of the form
MAJOR.MINOR.PATCH or MAJOR.MINOR.  This refutes the claim that
`parse_version` raises an error on every string not of those forms. -/
theorem C9_counterexample :
    parse_version "1.0.0\n" = .ok (1, 0, 0) ∧
    ¬ (VersionForm3 "1.0.0\n".toList ∨ VersionForm2 "1.0.0\n".toList) :=
  ⟨by rfl, fun h => form_no_newline h (by decide)⟩

/-- Claim C9 (amended): `parse_version` accepts exactly the strings of the
form MAJOR.MINOR.PATCH or MAJOR.MINOR with decimal digit components,
optionally followed by one trailing newline (admitted by the Python `$`
anchor); on accepted strings it returns the numeric (major, minor, patch)
tuple, with a missing PATCH taken as 0, and it raises an error on every
other string.  `compare_versions` orders versions numerically
tuple-lexicographically; the version "0.0.0" is valid, parses to
`(0, 0, 0)`, and is less than every valid version whose parsed tuple is
different. -/
theorem C9_version_parsing_amended :
    (∀ s : String, (∃ v, parse_version s = .ok v) ↔ AcceptedVersionString s) ∧
    (∀ (s : String) (base tail a b c : List Char),
        s.toList = base ++ tail → (tail = [] ∨ tail = ['\n']) →
        base = a ++ '.' :: (b ++ '.' :: c) →
        isDigits a = true → isDigits b = true → isDigits c = true →
        parse_version s = .ok (natOfDigits a, natOfDigits b, natOfDigits c)) ∧
    (∀ (s : String) (base tail a b : List Char),
        s.toList = base ++ tail → (tail = [] ∨ tail = ['\n']) →
        base = a ++ '.' :: b → isDigits a = true → isDigits b = true →
        parse_version s = .ok (natOfDigits a, natOfDigits b, 0)) ∧
    (∀ (v1 v2 : String) (p1 p2 : Nat × Nat × Nat),
        parse_version v1 = .ok p1 → parse_version v2 = .ok p2 →
        ((compare_versions v1 v2 = .ok 1 ↔ VerLexLt p2 p1) ∧
         (compare_versions v1 v2 = .ok (-1) ↔ VerLexLt p1 p2) ∧
         (compare_versions v1 v2 = .ok 0 ↔ p1 = p2))) ∧
    (parse_version "0.0.0" = .ok (0, 0, 0) ∧
     ∀ (v : String) (p : Nat × Nat × Nat), parse_version v = .ok p →
        p ≠ (0, 0, 0) → compare_versions "0.0.0" v = .ok (-1)) := by
  refine ⟨?_, ?_, ?_, ?_, ?_, ?_⟩
  · intro s
    constructor
    · rintro ⟨v, hv⟩
      exact accepted_of_parse_ok hv
    · rintro ⟨base, tail, hs, htail, hform | hform⟩
      · obtain ⟨a, b, c, ha, hb, hc, hbase⟩ := hform
        exact ⟨_, parse_version_of_form3 hs htail hbase ha hb hc⟩
      · obtain ⟨a, b, ha, hb, hbase⟩ := hform
        exact ⟨_, parse_version_of_form2 hs htail hbase ha hb⟩
  · intro s base tail a b c hs htail hbase ha hb hc
    exact parse_version_of_form3 hs htail hbase ha hb hc
  · intro s base tail a b hs htail hbase ha hb
    exact parse_version_of_form2 hs htail hbase ha hb
  · intro v1 v2 p1 p2 h1 h2
    exact compare_versions_characterization h1 h2
  · rfl
  · intro v p hp hne
    rw [compare_versions_eq
        (show parse_version "0.0.0" = .ok (0, 0, 0) from rfl) hp,
      verLt_to_zero p, verLt_zero_of_ne hne]
    rfl

/-- Witness for C9: the amended theorem applied at concrete inputs
"2.10" and "0.0.0". -/
theorem C9_witness :
    parse_version "2.10" = .ok (2, 10, 0) ∧
    compare_versions "0.0.0" "2.10" = .ok (-1) := by
  have h1 : parse_version "2.10" = .ok (2, 10, 0) :=
    C9_version_parsing_amended.2.2.1 "2.10" ['2', '.', '1', '0'] []
      ['2'] ['1', '0'] (by decide) (Or.inl rfl) (by decide) (by decide) (by decide)
  exact ⟨h1, C9_version_parsing_amended.2.2.2.2.2 "2.10" (2, 10, 0) h1 (by decide)⟩

/-! ## network.py : framed transport (`Socket`) -/

/-- `Socket._max_size = 64 * 1024` (src/psvc/network.py, line 29). -/
def maxFrameSize : Nat := 64 * 1024

/-- The chunking loop of `Socket._send` (src/psvc/network.py, lines
197-207): while bytes remain, emit a frame of `min(_max_size, n - i)`
payload bytes.  Each element of the result is the payload of one wire
frame, in emission order. -/
def sendChunks (msg : List Nat) : List (List Nat) :=
  if msg = [] then []
  else msg.take maxFrameSize :: sendChunks (msg.drop maxFrameSize)
termination_by msg.length
decreasing_by
  rename_i h
  have hl : 0 < msg.length := List.length_pos.mpr h
  simp only [List.length_drop]
  have hm : 0 < maxFrameSize := by decide
  omega

/-- Embedding of `Socket.send` (src/psvc/network.py, lines 181-195): an
empty message raises `ValueError`; otherwise `_send` emits the chunk
frames. -/
def Socket.send (msg : List Nat) : Except String (List (List Nat)) :=
  if msg.length ≤ 0 then .error "cannot send an empty message"
  else .ok (sendChunks msg)

/-- Big-endian 4-byte encoding of a frame header (`struct.pack('!I', size)`). -/
def beBytes4 (n : Nat) : List Nat :=
  [n / 16777216 % 256, n / 65536 % 256, n / 256 % 256, n % 256]

/-- Big-endian 4-byte decoding of a frame header (`struct.unpack('!I', raw)`). -/
def parseBE4 (b0 b1 b2 b3 : Nat) : Nat :=
  ((b0 * 256 + b1) * 256 + b2) * 256 + b3

/-- The byte stream obtained by framing each payload with its 4-byte
length header, in order. -/
def framesToWire (frames : List (List Nat)) : List Nat :=
  frames.foldr (fun f acc => beBytes4 f.length ++ f ++ acc) []

/-- How `Socket._data_handler` leaves the connection. -/
inductive HandlerEnd where
  | eof
  | failed (msg : String)
  deriving DecidableEq, Repr

/-- Embedding of `Socket._data_handler` (src/psvc/network.py, lines
131-160) on a finite inbound byte stream: read exactly 4 header bytes,
parse the size, raise `ValueError` when `size <= 0 or size > _max_size`
(tearing the connection down with an error), otherwise read exactly
`size` body bytes and enqueue them.  A short read at any point raises
`IncompleteReadError`, which the handler catches and treats as a clean
close (`.eof`).  Returns the enqueued messages and how the loop ended. -/
def dataHandler : (wire : List Nat) → List (List Nat) × HandlerEnd
  | b0 :: b1 :: b2 :: b3 :: rest =>
    if parseBE4 b0 b1 b2 b3 ≤ 0 ∨ parseBE4 b0 b1 b2 b3 > maxFrameSize then
      ([], .failed "invalid header length")
    else if rest.length < parseBE4 b0 b1 b2 b3 then ([], .eof)
    else
      let r := dataHandler (rest.drop (parseBE4 b0 b1 b2 b3))
      (rest.take (parseBE4 b0 b1 b2 b3) :: r.1, r.2)
  | _ => ([], .eof)
termination_by wire => wire.length
decreasing_by
  simp only [List.length_drop, List.length_cons]
  omega

theorem parseBE4_beBytes4 (n : Nat) (h : n < 4294967296) :
    parseBE4 (n / 16777216 % 256) (n / 65536 % 256) (n / 256 % 256) (n % 256)
      = n := by
  unfold parseBE4
  omega

theorem sendChunks_nil : sendChunks [] = [] := by
  unfold sendChunks
  simp

theorem sendChunks_whole (msg : List Nat) (h1 : msg ≠ [])
    (h2 : msg.length ≤ maxFrameSize) : sendChunks msg = [msg] := by
  unfold sendChunks
  rw [if_neg h1, List.take_of_length_le h2, List.drop_eq_nil_of_le h2,
    sendChunks_nil]

theorem sendChunks_flatten (msg : List Nat) : (sendChunks msg).flatten = msg := by
  induction msg using sendChunks.induct with
  | case1 => simp [sendChunks]
  | case2 msg h ih =>
    unfold sendChunks
    rw [if_neg h, List.flatten_cons, ih, List.take_append_drop]

theorem sendChunks_mem (msg : List Nat) :
    ∀ f ∈ sendChunks msg, 1 ≤ f.length ∧ f.length ≤ maxFrameSize := by
  induction msg using sendChunks.induct with
  | case1 =>
    rw [sendChunks_nil]
    intro f hf
    simp at hf
  | case2 msg h ih =>
    unfold sendChunks
    rw [if_neg h]
    intro f hf
    have hl : 0 < msg.length := List.length_pos.mpr h
    rcases List.mem_cons.mp hf with hf | hf
    · subst hf
      constructor
      · simp only [List.length_take]
        have hm : 0 < maxFrameSize := by decide
        omega
      · simp only [List.length_take]
        omega
    · exact ih f hf

theorem dataHandler_wire (frames : List (List Nat))
    (h : ∀ f ∈ frames, 1 ≤ f.length ∧ f.length ≤ maxFrameSize) :
    dataHandler (framesToWire frames) = (frames, .eof) := by
  induction frames with
  | nil =>
    show dataHandler [] = ([], .eof)
    unfold dataHandler
    rfl
  | cons f rest ih =>
    have hf := h f (List.mem_cons_self f rest)
    have hwire : framesToWire (f :: rest) =
        (f.length / 16777216 % 256) :: (f.length / 65536 % 256) ::
        (f.length / 256 % 256) :: (f.length % 256) ::
        (f ++ framesToWire rest) := by
      show beBytes4 f.length ++ f ++ framesToWire rest = _
      simp [beBytes4]
    rw [hwire]
    unfold dataHandler
    have hlt : f.length < 4294967296 := by
      have := hf.2
      unfold maxFrameSize at this
      omega
    rw [parseBE4_beBytes4 f.length hlt]
    rw [if_neg (by omega)]
    rw [if_neg (by simp only [List.length_append]; omega)]
    rw [List.take_left, List.drop_left]
    rw [ih (fun g hg => h g (List.mem_cons_of_mem f hg))]

/-- Claim C2 counterexample: a 65 537-byte payload is not rejected at the
sender; `Socket.send` chunks it into a 65 536-byte frame and a 1-byte
frame, and the receiver accepts both frames without failing the
connection.  This refutes the claim that 65 537 bytes are rejected at the
sender and at the receiver. -/
theorem C2_counterexample :
    Socket.send (List.replicate 65537 0) =
      .ok [List.replicate 65536 0, [0]] ∧
    dataHandler (framesToWire [List.replicate 65536 0, [0]]) =
      ([List.replicate 65536 0, [0]], .eof) := by
  have hne : List.replicate 65537 (0 : Nat) ≠ [] := by
    intro hc
    have hlen := congrArg List.length hc
    rw [List.length_replicate, List.length_nil] at hlen
    exact absurd hlen (by omega)
  constructor
  · unfold Socket.send
    rw [if_neg (by rw [List.length_replicate]; omega)]
    unfold sendChunks
    rw [if_neg hne]
    rw [List.take_replicate, List.drop_replicate]
    have h1 : min maxFrameSize 65537 = 65536 := by decide
    have h2 : 65537 - maxFrameSize = 1 := by decide
    rw [h1, h2]
    rw [show List.replicate 1 (0 : Nat) = [0] from rfl]
    rw [sendChunks_whole [0] (by simp) (by decide)]
  · apply dataHandler_wire
    intro f hf
    rcases List.mem_cons.mp hf with h | h
    · subst h
      refine ⟨?_, ?_⟩
      · rw [List.length_replicate]; omega
      · rw [List.length_replicate]; unfold maxFrameSize; omega
    · rcases List.mem_cons.mp h with h2 | h2
      · subst h2
        exact ⟨by simp, by decide⟩
      · simp at h2


/-- Claim C2 (amended): a 1-byte message and a 65 536-byte message are
each sent as a single frame and delivered whole; an empty message is
rejected at the sender; a 65 537-byte payload is not rejected but chunked
by the sender into a 65 536-byte frame followed by a 1-byte frame, both
of which the receiver accepts (as two separate queue entries); in
general every nonempty payload is chunked into frames of size in
[1, 65 536] whose concatenation is the payload, and the receiver
delivers exactly those frames; the receiver fails the connection
whenever a parsed 4-byte header length is outside [1, 65 536]. -/
theorem C2_frame_boundaries_amended :
    (∀ msg : List Nat, msg.length = 0 →
        Socket.send msg = .error "cannot send an empty message") ∧
    (∀ msg : List Nat, 1 ≤ msg.length → msg.length ≤ 65536 →
        Socket.send msg = .ok [msg] ∧
        dataHandler (framesToWire [msg]) = ([msg], .eof)) ∧
    (∀ msg : List Nat, 1 ≤ msg.length →
        Socket.send msg = .ok (sendChunks msg) ∧
        (∀ f ∈ sendChunks msg, 1 ≤ f.length ∧ f.length ≤ 65536) ∧
        (sendChunks msg).flatten = msg ∧
        dataHandler (framesToWire (sendChunks msg)) = (sendChunks msg, .eof)) ∧
    (∀ msg : List Nat, msg.length = 65537 →
        sendChunks msg = [msg.take 65536, msg.drop 65536]) ∧
    (∀ (b0 b1 b2 b3 : Nat) (rest : List Nat),
        parseBE4 b0 b1 b2 b3 ≤ 0 ∨ parseBE4 b0 b1 b2 b3 > 65536 →
        dataHandler (b0 :: b1 :: b2 :: b3 :: rest) =
          ([], .failed "invalid header length")) := by
  have hmax : maxFrameSize = 65536 := by decide
  refine ⟨?_, ?_, ?_, ?_, ?_⟩
  · intro msg h
    unfold Socket.send
    rw [if_pos (by omega)]
  · intro msg h1 h2
    have hne : msg ≠ [] := by
      intro hc; subst hc; simp at h1
    constructor
    · unfold Socket.send
      rw [if_neg (by omega), sendChunks_whole msg hne (by rw [hmax]; omega)]
    · apply dataHandler_wire
      intro f hf
      rcases List.mem_cons.mp hf with h | h
      · subst h
        exact ⟨h1, by rw [hmax]; omega⟩
      · simp at h
  · intro msg h1
    refine ⟨?_, ?_, sendChunks_flatten msg, ?_⟩
    · unfold Socket.send
      rw [if_neg (by omega)]
    · intro f hf
      have hb := sendChunks_mem msg f hf
      have hb2 := hb.2
      rw [hmax] at hb2
      exact ⟨hb.1, hb2⟩
    · exact dataHandler_wire _ (sendChunks_mem msg)
  · intro msg h1
    unfold sendChunks
    rw [if_neg (by intro hc; subst hc; simp at h1)]
    rw [hmax]
    have hlen : (msg.drop 65536).length = 1 := by
      rw [List.length_drop]; omega
    rw [sendChunks_whole (msg.drop 65536)
      (by intro hc; rw [hc] at hlen; simp at hlen) (by rw [hmax]; omega)]
  · intro b0 b1 b2 b3 rest h
    unfold dataHandler
    rw [if_pos (by rw [hmax]; exact h)]

/-- Witness for C2: the amended theorem applied to the 1-byte payload
`[7]`. -/
theorem C2_witness :
    Socket.send [7] = .ok [[7]] ∧
    dataHandler (framesToWire [[7]]) = ([[7]], .eof) :=
  C2_frame_boundaries_amended.2.1 [7] (by decide) (by decide)

/-! ## network.py : `Socket.recv_file` -/

/-- Python ASCII whitespace stripped by `int(str)`. -/
def isPySpace (c : Char) : Bool :=
  c = ' ' || c = '\t' || c = '\n' || c = '\r' || c = '\x0b' || c = '\x0c'

/-- Strip leading and trailing whitespace (model of the stripping `int()`
performs on its string argument). -/
def pyStrip (l : List Char) : List Char :=
  ((l.dropWhile isPySpace).reverse.dropWhile isPySpace).reverse

/-- After the first digit, an integer literal continues with digits,
with single underscores allowed between digits (Python 3 `int()`
grammar). -/
def digitsTail : List Char → Bool
  | [] => true
  | '_' :: c :: rest => c.isDigit && digitsTail rest
  | c :: rest => c.isDigit && digitsTail rest

/-- A digit run acceptable to `int()` after sign stripping: a digit
followed by digits with optional single interior underscores. -/
def digitRun : List Char → Bool
  | [] => false
  | c :: rest => c.isDigit && digitsTail rest

/-- Numeric value of a digit run, underscores removed. -/
def digitRunVal (l : List Char) : Nat :=
  natOfDigits (l.filter (fun c => c ≠ '_'))

/-- Model of Python `int(s)`: strip whitespace, optional sign, then a
digit run; anything else raises `ValueError` (`none`). -/
def pyInt? (s : String) : Option Int :=
  match pyStrip s.toList with
  | '+' :: rest => if digitRun rest then some (digitRunVal rest) else none
  | '-' :: rest => if digitRun rest then some (-(digitRunVal rest : Int)) else none
  | rest => if digitRun rest then some (digitRunVal rest) else none

/-- Model of `bytes.decode()` restricted to ASCII: a byte ≥ 128 makes
the model return `none` (`UnicodeDecodeError`, a `ValueError` subclass).
Multi-byte UTF-8 sequences that decode to non-ASCII text are out of the
model; treated as not denoting an integer. -/
def asciiDecode? (bytes : List Nat) : Option String :=
  if bytes.all (fun b => b < 128) then
    some (String.mk (bytes.map (fun b => Char.ofNat b)))
  else none

/-- The size frame of `recv_file`, decoded and parsed:
`int((await self.recv_str()))`; `none` models the raised `ValueError`. -/
def sizeFrameInt? (bytes : List Nat) : Option Int :=
  (asciiDecode? bytes).bind (fun s => pyInt? s)

/-- How `Socket.recv_file` ends. -/
inductive RecvFileEnd where
  | normal
  | raised (msg : String)
  | blocked
  deriving DecidableEq, Repr

/-- Result of `Socket.recv_file`: whether the target file was created
(`aiofiles.open(path, 'wb')` was reached), the bytes written to it, and
how the call ended. -/
structure RecvFileRes where
  fileCreated : Bool
  written : List Nat
  outcome : RecvFileEnd
  deriving DecidableEq, Repr

/-- The `while rsize < fsize` loop of `recv_file` (src/psvc/network.py,
lines 265-272): receive a chunk, count and write it, and raise a plain
`Exception` (not caught by the `except ValueError` handler) when the
received total overruns the declared size.  An empty queue with bytes
still expected blocks forever. -/
def recvFileLoop (fsize : Int) : Int → List Nat → List (List Nat) → RecvFileRes
  | rsize, written, [] =>
    if rsize < fsize then ⟨true, written, .blocked⟩ else ⟨true, written, .normal⟩
  | rsize, written, chunk :: rest =>
    if rsize < fsize then
      if rsize + chunk.length > fsize then
        ⟨true, written ++ chunk, .raised "file data mismatch"⟩
      else recvFileLoop fsize (rsize + chunk.length) (written ++ chunk) rest
    else ⟨true, written, .normal⟩

/-- Embedding of `Socket.recv_file` (src/psvc/network.py, lines 251-274)
on the connection's queued frames: read the size frame, parse it with
`int()`; a `ValueError` there (bad decode or non-integer text) is caught
by the `except ValueError` handler, logged, and the method returns
normally without the target file having been opened.  Otherwise the file
is opened (created) and the receive loop runs. -/
def Socket.recv_file (frames : List (List Nat)) : RecvFileRes :=
  match frames with
  | [] => ⟨false, [], .blocked⟩
  | first :: rest =>
    match sizeFrameInt? first with
    | none => ⟨false, [], .normal⟩
    | some fsize => recvFileLoop fsize 0 [] rest

/-- Claim C10: when the first frame of `recv_file` does not decode to a
decimal integer, the resulting `ValueError` is caught inside
`recv_file`, which logs it and returns normally: no exception reaches
the caller and the target file is never created, so the call is
indistinguishable (to the caller) from a successful receive, which also
returns normally. -/
theorem C10_recv_file_swallows_bad_size :
    ∀ (first : List Nat) (rest : List (List Nat)),
      sizeFrameInt? first = none →
      Socket.recv_file (first :: rest) =
        ⟨false, [], .normal⟩ := by
  intro first rest h
  unfold Socket.recv_file
  dsimp only
  rw [h]

/-- Witness for C10: the theorem applied to a first frame holding the
ASCII bytes of "abc", followed by one data frame. -/
theorem C10_witness :
    Socket.recv_file [[97, 98, 99], [1, 2, 3]] =
      ⟨false, [], .normal⟩ :=
  C10_recv_file_swallows_bad_size [97, 98, 99] [[1, 2, 3]] (by decide)

/-! ## cmd.py : `Commander.call`, `Commander._execute`, `Commander._receive` -/

/-- One step of a handler body in the dispatch model: raise an exception,
or invoke another command on the same dispatcher (`await self.call(...)`
from inside a handler).  Return values of nested calls are not otherwise
observable in the model. -/
inductive Act where
  | raiseA (msg : String)
  | callA (ident : String)
  deriving DecidableEq, Repr

/-- Observable dispatcher events: acquiring/releasing `_handle_lock`,
and a handler body starting to run with the call stack it observes. -/
inductive CEv where
  | acquire
  | release
  | run (ident : String) (stackAtEntry : List String)
  deriving DecidableEq, Repr

/-- Result of one `Commander.call`: the outcome, the `_call_stack` after
the call returns or raises, and the emitted events. -/
structure CallRes where
  result : Except String Unit
  stackAfter : List String
  events : List CEv

/-- Run a handler body (a list of `Act`), given the behaviour `call'` of
`Commander.call` for nested invocations.  A raised exception aborts the
body and propagates. -/
def runActs (call' : List String → String → CallRes) :
    List Act → List String → CallRes
  | [], st => ⟨.ok (), st, []⟩
  | .raiseA m :: _, st => ⟨.error m, st, []⟩
  | .callA id :: rest, st =>
    let r := call' st id
    match r.result with
    | .error e => ⟨.error e, r.stackAfter, r.events⟩
    | .ok _ =>
      let r2 := runActs call' rest r.stackAfter
      ⟨r2.result, r2.stackAfter, r.events ++ r2.events⟩

/-- Embedding of `Commander._execute` (src/psvc/cmd.py, lines 248-270):
append the ident to `_call_stack`; an unknown ident pops and raises
`KeyError`; otherwise the handler runs and the `finally` pops the last
stack entry whether it returned or raised. -/
def executeC (call' : List String → String → CallRes)
    (cmds : String → Option (List Act)) (st : List String) (ident : String) :
    CallRes :=
  let st1 := st ++ [ident]
  match cmds ident with
  | none => ⟨.error ("command not found: " ++ ident), st1.dropLast, []⟩
  | some acts =>
    let r := runActs call' acts st1
    ⟨r.result, r.stackAfter.dropLast, .run ident st1 :: r.events⟩

/-- Embedding of `Commander.call` (src/psvc/cmd.py, lines 272-288): a
top-level invocation (`_call_stack` empty) runs `_execute` inside
`async with self._handle_lock`; a nested invocation runs `_execute`
without touching the lock.  `fuel` bounds the nesting depth of the
model. -/
def callC (cmds : String → Option (List Act)) :
    Nat → List String → String → CallRes
  | 0, st, _ => ⟨.error "recursion budget exhausted", st, []⟩
  | fuel + 1, st, ident =>
    let ex := executeC (fun s i => callC cmds fuel s i) cmds st ident
    if st.isEmpty then
      ⟨ex.result, ex.stackAfter, .acquire :: (ex.events ++ [.release])⟩
    else ex

theorem runActs_stackAfter (call' : List String → String → CallRes)
    (hc : ∀ s i, (call' s i).stackAfter = s) :
    ∀ (acts : List Act) (st : List String),
      (runActs call' acts st).stackAfter = st := by
  intro acts
  induction acts with
  | nil => intro st; rfl
  | cons a rest ih =>
    intro st
    cases a with
    | raiseA m => rfl
    | callA id =>
      unfold runActs
      cases hr : (call' st id).result with
      | error e =>
        simp only [hr]
        exact hc st id
      | ok u =>
        simp only [hr]
        rw [ih ((call' st id).stackAfter), hc st id]

theorem callC_stackAfter (cmds : String → Option (List Act)) :
    ∀ (fuel : Nat) (st : List String) (ident : String),
      (callC cmds fuel st ident).stackAfter = st := by
  intro fuel
  induction fuel with
  | zero => intro st ident; rfl
  | succ fuel ih =>
    intro st ident
    have hex : (executeC (fun s i => callC cmds fuel s i) cmds st ident).stackAfter
        = st := by
      unfold executeC
      cases hc : cmds ident with
      | none => simp
      | some acts =>
        simp only [hc]
        rw [runActs_stackAfter _ (fun s i => ih s i)]
        simp
    unfold callC
    by_cases hst : st.isEmpty
    · simp only [hst, if_true]
      exact hex
    · simp only [hst, if_false]
      exact hex

theorem runActs_no_lock_events (call' : List String → String → CallRes)
    (hstk : ∀ s i, (call' s i).stackAfter = s)
    (hc : ∀ s i, s ≠ [] → ∀ e ∈ (call' s i).events,
        e ≠ CEv.acquire ∧ e ≠ CEv.release) :
    ∀ (acts : List Act) (st : List String), st ≠ [] →
      ∀ e ∈ (runActs call' acts st).events,
        e ≠ CEv.acquire ∧ e ≠ CEv.release := by
  intro acts
  induction acts with
  | nil =>
    intro st hst e he
    simp [runActs] at he
  | cons a rest ih =>
    intro st hst e he
    cases a with
    | raiseA m => simp [runActs] at he
    | callA id =>
      unfold runActs at he
      cases hr : (call' st id).result with
      | error er =>
        simp only [hr] at he
        exact hc st id hst e he
      | ok u =>
        simp only [hr] at he
        rcases List.mem_append.mp he with h1 | h1
        · exact hc st id hst e h1
        · rw [hstk st id] at h1
          exact ih st hst e h1

theorem callC_no_lock_events (cmds : String → Option (List Act)) :
    ∀ (fuel : Nat) (st : List String) (ident : String), st ≠ [] →
      ∀ e ∈ (callC cmds fuel st ident).events,
        e ≠ CEv.acquire ∧ e ≠ CEv.release := by
  intro fuel
  induction fuel with
  | zero =>
    intro st ident hst e he
    simp [callC] at he
  | succ fuel ih =>
    intro st ident hst e he
    unfold callC at he
    rw [if_neg (by simpa [List.isEmpty_iff] using hst)] at he
    unfold executeC at he
    cases hcm : cmds ident with
    | none =>
      simp only [hcm] at he
      simp at he
    | some acts =>
      simp only [hcm] at he
      rcases List.mem_cons.mp he with h1 | h1
      · subst h1
        exact ⟨by simp, by simp⟩
      · have hne : st ++ [ident] ≠ [] := by simp
        exact runActs_no_lock_events _ (callC_stackAfter cmds fuel)
          (fun s i hs => ih s i hs) acts (st ++ [ident]) hne e h1

/-- Claim C7: in `Commander.call`, a top-level invocation (empty call
stack) executes `_execute` while holding `_handle_lock` — its event
trace is bracketed by acquire/release — whereas a nested invocation
made from within an executing handler on the same dispatcher (nonempty
call stack) executes without touching the lock; the command's ident is
appended to the call stack for the duration of execution (the handler
body observes the extended stack) and popped afterwards, including when
the handler raises or the ident is unknown. -/
theorem C7_call_stack_locking :
    (∀ (cmds : String → Option (List Act)) (fuel : Nat) (ident : String),
        ∃ mid, (callC cmds (fuel + 1) [] ident).events =
            CEv.acquire :: mid ++ [CEv.release] ∧
          ∀ acts, cmds ident = some acts → CEv.run ident [ident] ∈ mid) ∧
    (∀ (cmds : String → Option (List Act)) (fuel : Nat) (ident : String)
        (stack : List String), stack ≠ [] →
        (∀ e ∈ (callC cmds fuel stack ident).events,
            e ≠ CEv.acquire ∧ e ≠ CEv.release) ∧
        (∀ acts, cmds ident = some acts →
            ((callC cmds (fuel + 1) stack ident).events).head? =
              some (CEv.run ident (stack ++ [ident])))) ∧
    (∀ (cmds : String → Option (List Act)) (fuel : Nat) (ident : String)
        (stack : List String),
        (callC cmds fuel stack ident).stackAfter = stack) := by
  refine ⟨?_, ?_, ?_⟩
  · intro cmds fuel ident
    refine ⟨(executeC (fun s i => callC cmds fuel s i) cmds [] ident).events,
      ?_, ?_⟩
    · rfl
    · intro acts hacts
      unfold executeC
      simp only [hacts]
      simp
  · intro cmds fuel ident stack hst
    refine ⟨callC_no_lock_events cmds fuel stack ident hst, ?_⟩
    intro acts hacts
    cases stack with
    | nil => exact absurd rfl hst
    | cons s ss =>
      show ((executeC (fun s i => callC cmds fuel s i) cmds
        (s :: ss) ident).events).head? = _
      unfold executeC
      simp only [hacts]
      simp
  · intro cmds fuel ident stack
    exact callC_stackAfter cmds fuel stack ident

/-- Demo command table used by concrete witnesses: "inner" returns,
"outer" nests a call to "inner", "boom" raises. -/
def demoCmds : String → Option (List Act) := fun id =>
  if id = "inner" then some []
  else if id = "outer" then some [Act.callA "inner"]
  else if id = "boom" then some [Act.raiseA "handler exploded"]
  else none

/-- Witness for C7: the theorem applied to a nested invocation of
"inner" made with "outer" already on the call stack. -/
theorem C7_witness :
    (callC demoCmds 2 ["outer"] "inner").stackAfter = ["outer"] ∧
    (∀ e ∈ (callC demoCmds 2 ["outer"] "inner").events,
        e ≠ CEv.acquire ∧ e ≠ CEv.release) ∧
    (callC demoCmds 3 ["outer"] "inner").events.head? =
      some (CEv.run "inner" ["outer", "inner"]) :=
  ⟨C7_call_stack_locking.2.2 demoCmds 2 "inner" ["outer"],
   (C7_call_stack_locking.2.1 demoCmds 2 "inner" ["outer"] (by decide)).1,
   (C7_call_stack_locking.2.1 demoCmds 2 "inner" ["outer"] (by decide)).2
     [] (by decide)⟩

/-- A frame arriving at `Commander._receive`: either undecodable JSON or
an envelope whose `_ident` is the given string (envelope bodies are not
observable in the model). -/
inductive RFrame where
  | malformed
  | envelope (ident : String)
  deriving DecidableEq, Repr

/-- Embedding of `Commander._receive` (src/psvc/cmd.py, lines 323-338).
Frames are processed in order: each is JSON-decoded (a malformed frame
raises `JSONDecodeError`) and dispatched through `call_header`/`call`.
The only exception handler around the loop is
`except asyncio.CancelledError`; any other exception — the decode
error, the unknown-ident `KeyError` from `_execute`, or a handler
exception re-raised by the `set_command` wrapper — escapes the `while`,
after which the `finally` runs `close_all()` on the endpoint and the
receive task ends.  Returns the idents whose dispatch was attempted and
the exception that terminated the loop (`none` when every frame was
processed and the loop is still alive). -/
def receiveLoop (cmds : String → Option (List Act)) (fuel : Nat) :
    List RFrame → List String × Option String
  | [] => ([], none)
  | .malformed :: _ => ([], some "JSONDecodeError")
  | .envelope id :: rest =>
    match (callC cmds fuel [] id).result with
    | .error e => ([id], some e)
    | .ok _ =>
      let r := receiveLoop cmds fuel rest
      (id :: r.1, r.2)

/-- Claim C1 counterexample: `Commander._receive` has no per-frame
exception handling, so an unknown ident, a malformed frame, or a
raising handler terminates the receive loop with the exception and the
following frame is never dispatched; only all-well frames keep the loop
alive.  This refutes the claim that such frames are logged, dropped,
and followed by continued processing. -/
theorem C1_counterexample :
    receiveLoop demoCmds 2 [.envelope "nope", .envelope "inner"] =
      (["nope"], some "command not found: nope") ∧
    receiveLoop demoCmds 2 [.malformed, .envelope "inner"] =
      ([], some "JSONDecodeError") ∧
    receiveLoop demoCmds 2 [.envelope "boom", .envelope "inner"] =
      (["boom"], some "handler exploded") ∧
    receiveLoop demoCmds 2 [.envelope "inner", .envelope "inner"] =
      (["inner", "inner"], none) := by decide

/-- Claim C1 (amended): a malformed frame makes the receive loop
terminate at once with `JSONDecodeError` and no dispatch; a frame whose
dispatch raises (in particular one whose ident is not registered, which
raises `KeyError` from `_execute`) terminates the loop with that
exception, and subsequent frames are not processed; the endpoint's
sockets are then all closed by the loop's `finally`, so the connection
does not survive. -/
theorem C1_receive_loop_amended :
    (∀ (cmds : String → Option (List Act)) (fuel : Nat) (rest : List RFrame),
        receiveLoop cmds fuel (RFrame.malformed :: rest) =
          ([], some "JSONDecodeError")) ∧
    (∀ (cmds : String → Option (List Act)) (fuel : Nat) (rest : List RFrame)
        (id e : String),
        (callC cmds fuel [] id).result = .error e →
        receiveLoop cmds fuel (RFrame.envelope id :: rest) = ([id], some e)) ∧
    (∀ (cmds : String → Option (List Act)) (fuel : Nat) (id : String),
        cmds id = none →
        (callC cmds (fuel + 1) [] id).result =
          .error ("command not found: " ++ id)) := by
  refine ⟨?_, ?_, ?_⟩
  · intro cmds fuel rest
    rfl
  · intro cmds fuel rest id e h
    unfold receiveLoop
    rw [h]
  · intro cmds fuel id h
    unfold callC executeC
    simp [h]

/-- Witness for C1: the amended theorem applied to a single frame whose
ident "nope" is not registered in `demoCmds`. -/
theorem C1_witness :
    receiveLoop demoCmds 2 [RFrame.envelope "nope"] =
      (["nope"], some "command not found: nope") :=
  C1_receive_loop_amended.2.1 demoCmds 2 [] "nope" "command not found: nope"
    (C1_receive_loop_amended.2.2 demoCmds 1 "nope" (by decide))

/-! ## release.py : `Releaser.get_version_list` and `__request_versions__` -/

/-- One immediate child of the release directory, as `get_version_list`
observes it: its name, whether it is a directory, whether a status.json
exists in it, whether that file parses as JSON, and the value the parsed
metadata holds under 'status' (`none` when the key is absent). -/
structure CatChild where
  name : String
  isDir : Bool
  hasStatus : Bool
  parses : Bool
  status : Option String
  deriving DecidableEq, Repr

/-- The scan loop of `Releaser.get_version_list` (src/psvc/release.py,
lines 82-106): skip non-directories and children without status.json; a
`json.load` failure raises, and the surrounding `except Exception`
catches it OUTSIDE the `for`, so the whole scan stops with the versions
collected so far; a child whose parsed status equals 'approved' is
collected. -/
def scanChildren : List CatChild → List String
  | [] => []
  | c :: rest =>
    if !c.isDir then scanChildren rest
    else if !c.hasStatus then scanChildren rest
    else if !c.parses then []
    else if c.status = some "approved" then c.name :: scanChildren rest
    else scanChildren rest

/-- Whether `parse_version` succeeds (the sort key computation does not
raise). -/
def parseOk (v : String) : Bool :=
  match parse_version v with
  | .ok _ => true
  | .error _ => false

/-- The sort key of `approved_versions.sort(key=lambda v: parse_version(v))`;
only consulted when every name parses. -/
def versionKey (v : String) : Nat × Nat × Nat :=
  match parse_version v with
  | .ok p => p
  | .error _ => (0, 0, 0)

/-- Python tuple comparison `p <= q`. -/
def verLe (p q : Nat × Nat × Nat) : Bool := !(verLt q p)

/-- Embedding of `Releaser.get_version_list` (src/psvc/release.py, lines
73-115): scan the children, then sort ascending by parsed version tuple;
when any collected name fails `parse_version` the `except ValueError`
fires and the list stays in scan order (CPython's `list.sort` computes
every key before moving elements, so the list is unchanged on a key
error). -/
def get_version_list (children : List CatChild) : List String :=
  let approved := scanChildren children
  if approved.all parseOk then
    approved.mergeSort (fun a b => verLe (versionKey a) (versionKey b))
  else approved

/-- Embedding of `Releaser._cmd_request_versions` (src/psvc/release.py,
lines 183-195): re-scan the catalog as it is NOW, store it, and reply
`__receive_versions__` with that list.  Returns (updated `self.versions`,
(sent ident, sent body)). -/
def cmd_request_versions (children : List CatChild) :
    List String × (String × List String) :=
  let versions := get_version_list children
  (versions, ("__receive_versions__", versions))

/-- Spec-side non-strict tuple order. -/
def VerLexLe (p q : Nat × Nat × Nat) : Prop := VerLexLt p q ∨ p = q

theorem verLe_iff (p q : Nat × Nat × Nat) : verLe p q = true ↔ VerLexLe p q := by
  unfold verLe VerLexLe
  constructor
  · intro h
    rw [Bool.not_eq_true'] at h
    by_cases hlt : verLt p q = true
    · exact Or.inl ((verLt_iff p q).mp hlt)
    · rw [Bool.not_eq_true] at hlt
      exact Or.inr (verLt_trichotomy p q hlt h)
  · intro h
    rcases h with h | h
    · rw [verLt_asymm ((verLt_iff p q).mpr h)]
      rfl
    · subst h
      rw [verLt_irrefl]
      rfl

theorem verLe_total (p q : Nat × Nat × Nat) :
    (verLe p q || verLe q p) = true := by
  unfold verLe
  cases hpq : verLt q p with
  | false => rfl
  | true =>
    rw [verLt_asymm hpq]
    rfl

theorem verLe_trans {p q r : Nat × Nat × Nat}
    (h1 : verLe p q = true) (h2 : verLe q r = true) : verLe p r = true := by
  apply (verLe_iff p r).mpr
  have g1 := (verLe_iff p q).mp h1
  have g2 := (verLe_iff q r).mp h2
  obtain ⟨p1, p2, p3⟩ := p
  obtain ⟨q1, q2, q3⟩ := q
  obtain ⟨r1, r2, r3⟩ := r
  unfold VerLexLe VerLexLt at g1 g2 ⊢
  simp only [Prod.mk.injEq] at g1 g2 ⊢
  omega

theorem exists_cons_of_not {α : Type} {c : α} {rest : List α} {P : α → Prop}
    (hc : ¬ P c) : (∃ e ∈ c :: rest, P e) ↔ (∃ e ∈ rest, P e) := by
  constructor
  · rintro ⟨e, hem, he⟩
    rcases List.mem_cons.mp hem with h1 | h1
    · subst h1
      exact absurd he hc
    · exact ⟨e, h1, he⟩
  · rintro ⟨e, hem, he⟩
    exact ⟨e, List.mem_cons_of_mem c hem, he⟩

/-- The predicate "child `c` is served under the name `v`": a version
directory with a parseable status.json whose status is 'approved'. -/
def ServedAs (v : String) (c : CatChild) : Prop :=
  c.isDir = true ∧ c.hasStatus = true ∧ c.parses = true ∧
    c.status = some "approved" ∧ c.name = v

instance (v : String) (c : CatChild) : Decidable (ServedAs v c) := by
  unfold ServedAs
  infer_instance

theorem scanChildren_mem (children : List CatChild)
    (hwf : ∀ c ∈ children, c.isDir = true → c.hasStatus = true →
        c.parses = true) :
    ∀ v, v ∈ scanChildren children ↔ ∃ c ∈ children, ServedAs v c := by
  induction children with
  | nil =>
    intro v
    simp [scanChildren]
  | cons c rest ih =>
    intro v
    have hrest := ih (fun d hd => hwf d (List.mem_cons_of_mem c hd))
    by_cases hd : c.isDir = true
    · by_cases hs : c.hasStatus = true
      · have hp : c.parses = true := hwf c (List.mem_cons_self c rest) hd hs
        by_cases ha : c.status = some "approved"
        · have hstep : scanChildren (c :: rest) = c.name :: scanChildren rest := by
            rw [scanChildren.eq_def]
            simp [hd, hs, hp, ha]
          rw [hstep]
          constructor
          · intro hm
            rcases List.mem_cons.mp hm with h1 | h1
            · exact ⟨c, List.mem_cons_self c rest, hd, hs, hp, ha, h1.symm⟩
            · obtain ⟨e, hem, he⟩ := (hrest v).mp h1
              exact ⟨e, List.mem_cons_of_mem c hem, he⟩
          · rintro ⟨e, hem, he⟩
            rcases List.mem_cons.mp hem with h1 | h1
            · subst h1
              rw [← he.2.2.2.2]
              exact List.mem_cons_self _ _
            · exact List.mem_cons_of_mem _ ((hrest v).mpr ⟨e, h1, he⟩)
        · have hstep : scanChildren (c :: rest) = scanChildren rest := by
            rw [scanChildren.eq_def]
            simp [hd, hs, hp, ha]
          have hc : ¬ ServedAs v c := fun hP => ha hP.2.2.2.1
          rw [hstep, hrest v]
          exact (exists_cons_of_not hc).symm
      · rw [Bool.not_eq_true] at hs
        have hstep : scanChildren (c :: rest) = scanChildren rest := by
          rw [scanChildren.eq_def]
          simp [hd, hs]
        have hc : ¬ ServedAs v c := fun hP => by
          rw [hP.2.1] at hs
          exact absurd hs (by simp)
        rw [hstep, hrest v]
        exact (exists_cons_of_not hc).symm
    · rw [Bool.not_eq_true] at hd
      have hstep : scanChildren (c :: rest) = scanChildren rest := by
        rw [scanChildren.eq_def]
        simp [hd]
      have hc : ¬ ServedAs v c := fun hP => by
        rw [hP.1] at hd
        exact absurd hd (by simp)
      rw [hstep, hrest v]
      exact (exists_cons_of_not hc).symm

theorem scan_all_parseOk (children : List CatChild)
    (hwf : ∀ c ∈ children, c.isDir = true → c.hasStatus = true →
        c.parses = true)
    (hvalid : ∀ c ∈ children, c.isDir = true → c.hasStatus = true →
        c.status = some "approved" → parseOk c.name = true) :
    (scanChildren children).all parseOk = true := by
  rw [List.all_eq_true]
  intro v hv
  obtain ⟨c, hcm, hc⟩ := (scanChildren_mem children hwf v).mp hv
  rw [← hc.2.2.2.2]
  exact hvalid c hcm hc.1 hc.2.1 hc.2.2.2.1

/-- Claim C5 counterexample: a catalog whose first directory (in scan
order) holds a status.json that is not valid JSON makes the whole scan
abort, so a later directory that IS approved is missing from the
`__request_versions__` reply.  This refutes the claim that the reply
contains exactly the approved version directories for every catalog
state. -/
theorem C5_counterexample :
    (cmd_request_versions
      [⟨"1.0.0", true, true, false, none⟩,
       ⟨"2.0.0", true, true, true, some "approved"⟩]).2.2 = [] ∧
    ServedAs "2.0.0"
      (⟨"2.0.0", true, true, true, some "approved"⟩ : CatChild) ∧
    (⟨"2.0.0", true, true, true, some "approved"⟩ : CatChild) ∈
      [(⟨"1.0.0", true, true, false, none⟩ : CatChild),
       ⟨"2.0.0", true, true, true, some "approved"⟩] := by
  refine ⟨?_, by decide, by decide⟩
  have hscan : scanChildren
      [⟨"1.0.0", true, true, false, none⟩,
       ⟨"2.0.0", true, true, true, some "approved"⟩] = [] := by decide
  show get_version_list
      [⟨"1.0.0", true, true, false, none⟩,
       ⟨"2.0.0", true, true, true, some "approved"⟩] = []
  unfold get_version_list
  rw [hscan]
  simp

/-- Claim C5 (amended): for every catalog state in which each version
directory's status.json parses as JSON and each approved directory name
is a valid version string, the `__request_versions__` reply contains
exactly the directories whose status.json has status 'approved' (drafts
and deprecated versions excluded), sorted ascending by parsed version
tuple; the catalog is re-scanned on the invocation itself (the reply is
computed from the catalog state passed in, so later promotions are
visible without restart).  Without the well-formedness proviso the claim
fails: one unparseable status.json truncates the scan. -/
theorem C5_request_versions_amended :
    ∀ (children : List CatChild),
      (∀ c ∈ children, c.isDir = true → c.hasStatus = true →
          c.parses = true) →
      (∀ c ∈ children, c.isDir = true → c.hasStatus = true →
          c.status = some "approved" → parseOk c.name = true) →
      (∀ v, v ∈ (cmd_request_versions children).2.2 ↔
          ∃ c ∈ children, ServedAs v c) ∧
      (cmd_request_versions children).2.1 = "__receive_versions__" ∧
      List.Sorted (fun a b => VerLexLe (versionKey a) (versionKey b))
        ((cmd_request_versions children).2.2) ∧
      (cmd_request_versions children).1 =
        (cmd_request_versions children).2.2 := by
  intro children hwf hvalid
  have hall := scan_all_parseOk children hwf hvalid
  have hgv : get_version_list children =
      (scanChildren children).mergeSort
        (fun a b => verLe (versionKey a) (versionKey b)) := by
    unfold get_version_list
    rw [if_pos hall]
  have hreq : (cmd_request_versions children).2.2 =
      get_version_list children := rfl
  refine ⟨?_, rfl, ?_, rfl⟩
  · intro v
    rw [hreq, hgv,
      List.Perm.mem_iff (List.mergeSort_perm (scanChildren children) _)]
    exact scanChildren_mem children hwf v
  · rw [hreq, hgv]
    have hsorted : ((scanChildren children).mergeSort
        (fun a b => verLe (versionKey a) (versionKey b))).Sorted
        (fun a b => verLe (versionKey a) (versionKey b) = true) :=
      List.sorted_mergeSort
        (fun a b c hab hbc =>
          @verLe_trans (versionKey a) (versionKey b) (versionKey c) hab hbc)
        (fun a b => verLe_total (versionKey a) (versionKey b))
        (scanChildren children)
    exact hsorted.imp (fun hab => (verLe_iff _ _).mp hab)

/-- Demo catalog: two approved versions (listed unsorted) and one draft. -/
def demoCatalog : List CatChild :=
  [⟨"1.1.0", true, true, true, some "approved"⟩,
   ⟨"0.9.0", true, true, true, some "draft"⟩,
   ⟨"1.0.0", true, true, true, some "approved"⟩]

/-- Witness for C5: the amended theorem applied to `demoCatalog`. -/
theorem C5_witness :
    ("1.0.0" ∈ (cmd_request_versions demoCatalog).2.2) ∧
    ¬ ("0.9.0" ∈ (cmd_request_versions demoCatalog).2.2) :=
  have h := C5_request_versions_amended demoCatalog (by decide) (by decide)
  ⟨(h.1 "1.0.0").mpr
      ⟨⟨"1.0.0", true, true, true, some "approved"⟩, by decide, by decide⟩,
   fun hm => absurd ((h.1 "0.9.0").mp hm) (by decide)⟩

/-! ## release.py : `Releaser._cmd_download_update` (C3) -/

/-- A manifest file entry (`{path, size, checksum}`). -/
structure FileEntry where
  path : String
  size : Nat
  checksum : String
  deriving DecidableEq, Repr

/-- A message `_cmd_download_update` sends to the requesting peer, in
order: a command envelope or one `send_file` payload. -/
inductive DlMsg where
  | downloadFailed (error : String)
  | downloadStart (version : String) (files : List FileEntry)
      (total_size : Nat) (file_count : Nat)
  | filePayload (path : String)
  | downloadComplete (version : String) (file_count : Nat)
  deriving DecidableEq, Repr

/-- The per-file loop of `_cmd_download_update` (src/psvc/release.py,
lines 251-266): stream each manifest file in order via `send_file`; a
missing file raises `FileNotFoundError`, which the surrounding handler
turns into a trailing `__download_failed__`; after the last file the
server sends `__download_complete__ {version, file_count}`. -/
def sendFiles (version : String) (present : String → Bool) (count : Nat) :
    List FileEntry → List DlMsg
  | [] => [.downloadComplete version count]
  | f :: rest =>
    if present f.path then
      .filePayload f.path :: sendFiles version present count rest
    else [.downloadFailed ("file not found: " ++ f.path)]

/-- Embedding of `Releaser._cmd_download_update` (src/psvc/release.py,
lines 211-273) as the ordered list of messages sent for one request:
an unapproved version gets only `__download_failed__`; otherwise the
metadata's file list is read (an empty list raises `ValueError`, also
answered by `__download_failed__`), `__download_start__` is sent with
the list, the summed sizes and the count, then the files stream in
manifest order, then `__download_complete__`. -/
def cmd_download_update (approved : List String)
    (filesOf : String → List FileEntry) (present : String → Bool)
    (version : String) : List DlMsg :=
  if version ∉ approved then
    [.downloadFailed ("version not found: " ++ version)]
  else
    let files := filesOf version
    if files = [] then [.downloadFailed ("no files in version " ++ version)]
    else
      .downloadStart version files ((files.map (fun f => f.size)).sum)
          files.length ::
        sendFiles version present files.length files

theorem sendFiles_all_present (version : String) (present : String → Bool)
    (count : Nat) :
    ∀ (fs : List FileEntry), (∀ f ∈ fs, present f.path = true) →
      sendFiles version present count fs =
        fs.map (fun f => DlMsg.filePayload f.path) ++
          [.downloadComplete version count] := by
  intro fs
  induction fs with
  | nil => intro h; rfl
  | cons f rest ih =>
    intro h
    unfold sendFiles
    rw [if_pos (h f (List.mem_cons_self f rest)),
      ih (fun g hg => h g (List.mem_cons_of_mem f hg))]
    rfl

/-- Claim C3 counterexample: for an approved version whose manifest
lists no files, the reply is `__download_failed__`, not
`__download_start__ ...`; the claim's "otherwise" branch does not hold
for every approved version. -/
theorem C3_counterexample :
    cmd_download_update ["1.0.0"] (fun _ => []) (fun _ => true) "1.0.0" =
      [.downloadFailed "no files in version 1.0.0"] ∧
    "1.0.0" ∈ ["1.0.0"] := by decide

/-- Claim C3 (amended): on `__download_update__ {version}`, if the
version is not approved the server replies `__download_failed__
{error}` and sends nothing else; otherwise, provided the manifest lists
at least one file and every listed file exists on disk, it replies
`__download_start__` carrying the version, the manifest's file list,
`total_size` equal to the sum of the listed sizes and `file_count`,
then sends each file's payload in manifest order via the file-transfer
mode, and finally replies `__download_complete__ {version, file_count}`
(an empty manifest or a missing file instead produces a
`__download_failed__` reply). -/
theorem C3_download_update_amended :
    (∀ (approved : List String) (filesOf : String → List FileEntry)
        (present : String → Bool) (version : String),
        version ∉ approved →
        cmd_download_update approved filesOf present version =
          [.downloadFailed ("version not found: " ++ version)]) ∧
    (∀ (approved : List String) (filesOf : String → List FileEntry)
        (present : String → Bool) (version : String),
        version ∈ approved → filesOf version ≠ [] →
        (∀ f ∈ filesOf version, present f.path = true) →
        cmd_download_update approved filesOf present version =
          .downloadStart version (filesOf version)
              (((filesOf version).map (fun f => f.size)).sum)
              (filesOf version).length ::
            ((filesOf version).map (fun f => DlMsg.filePayload f.path) ++
              [.downloadComplete version (filesOf version).length])) := by
  constructor
  · intro approved filesOf present version h
    unfold cmd_download_update
    rw [if_pos h]
  · intro approved filesOf present version hmem hne hpresent
    unfold cmd_download_update
    rw [if_neg (by simpa using hmem)]
    dsimp only
    rw [if_neg hne, sendFiles_all_present version present
      (filesOf version).length (filesOf version) hpresent]

/-- Demo manifest used by the C3 witness. -/
def demoFiles : String → List FileEntry := fun v =>
  if v = "1.0.0" then
    [⟨"app.bin", 10, "sha256:aa"⟩, ⟨"lib/mod.py", 5, "sha256:bb"⟩]
  else []

/-- Witness for C3: the amended theorem applied to a two-file manifest. -/
theorem C3_witness :
    cmd_download_update ["1.0.0"] demoFiles (fun _ => true) "1.0.0" =
      DlMsg.downloadStart "1.0.0" (demoFiles "1.0.0") 15 2 ::
        ([DlMsg.filePayload "app.bin", DlMsg.filePayload "lib/mod.py"] ++
          [DlMsg.downloadComplete "1.0.0" 2]) :=
  C3_download_update_amended.2 ["1.0.0"] demoFiles (fun _ => true) "1.0.0"
    (by decide) (by decide) (by decide)

/-! ## release.py : `Releaser.get_latest_version` and `Updater.check_update` (C6) -/

/-- Embedding of `Releaser.get_latest_version` (src/psvc/release.py,
lines 117-126): `None` when the approved list is empty, else
`versions[-1]`. -/
def get_latest_version (versions : List String) : Option String :=
  if versions.isEmpty then none else versions.getLast?

/-- Embedding of `Releaser._cmd_request_latest_version`
(src/psvc/release.py, lines 197-209): reply
`__receive_latest_version__` with the latest approved version. -/
def cmd_request_latest_version (versions : List String) :
    String × Option String :=
  ("__receive_latest_version__", get_latest_version versions)

/-- Embedding of `Updater.check_update` (src/psvc/release.py, lines
464-482), given the latest version the server replied (`none` models
the `None` reply of an empty catalog) and the running version: `None`
→ `False`; otherwise `compare_versions(latest, current) > 0`. -/
def check_update (latest : Option String) (current : String) :
    Except String Bool :=
  match latest with
  | none => .ok false
  | some l => (compare_versions l current).map (fun r => decide (r > 0))

/-- Claim C6: `get_latest_version` (the value `fetch_latest_version`
relays) is the last element of the server's sorted approved list, or
`None` when the catalog is empty; `check_update` returns true iff
`parse_version(latest) > parse_version(current)`, and in particular
returns false when the latest version is `None`. -/
theorem C6_latest_version_check_update :
    (get_latest_version [] = none) ∧
    (∀ (vs : List String) (v : String),
        get_latest_version (vs ++ [v]) = some v) ∧
    (∀ versions, cmd_request_latest_version versions =
        ("__receive_latest_version__", get_latest_version versions)) ∧
    (∀ current, check_update none current = .ok false) ∧
    (∀ (l current : String) (pl pc : Nat × Nat × Nat),
        parse_version l = .ok pl → parse_version current = .ok pc →
        check_update (some l) current = .ok (verLt pc pl)) ∧
    (∀ (l current : String) (pl pc : Nat × Nat × Nat),
        parse_version l = .ok pl → parse_version current = .ok pc →
        (check_update (some l) current = .ok true ↔ VerLexLt pc pl)) := by
  have hmain : ∀ (l current : String) (pl pc : Nat × Nat × Nat),
      parse_version l = .ok pl → parse_version current = .ok pc →
      check_update (some l) current = .ok (verLt pc pl) := by
    intro l current pl pc hl hc
    unfold check_update
    dsimp only
    rw [compare_versions_eq hl hc]
    cases hv : verLt pc pl with
    | true => rfl
    | false =>
      cases hv2 : verLt pl pc with
      | true => rfl
      | false => rfl
  refine ⟨rfl, ?_, fun versions => rfl, fun current => rfl, hmain, ?_⟩
  · intro vs v
    unfold get_latest_version
    rw [if_neg (by simp), List.getLast?_concat]
  · intro l current pl pc hl hc
    rw [hmain l current pl pc hl hc]
    constructor
    · intro h
      rw [Except.ok.injEq] at h
      exact (verLt_iff pc pl).mp h
    · intro h
      rw [(verLt_iff pc pl).mpr h]

/-- Witness for C6: the theorem applied to the catalog
`["1.0.0", "1.1.0"]` and running version "1.0.0". -/
theorem C6_witness :
    get_latest_version (["1.0.0"] ++ ["1.1.0"]) = some "1.1.0" ∧
    check_update (some "1.1.0") "1.0.0" = .ok true :=
  ⟨C6_latest_version_check_update.2.1 ["1.0.0"] "1.1.0",
   C6_latest_version_check_update.2.2.2.2.1 "1.1.0" "1.0.0"
     (1, 1, 0) (1, 0, 0) (by rfl) (by rfl)⟩

/-! ## utils/checksum.py and `Updater._cmd_download_start` (C4) -/

/-- Helper for Python `s.split(':', 1)`: find the first colon and split
there; `none` when there is no colon. -/
def splitColonAux : List Char → Option (List Char × List Char)
  | [] => none
  | c :: rest =>
    if c = ':' then some ([], rest)
    else
      match splitColonAux rest with
      | some (a, b) => some (c :: a, b)
      | none => none

/-- Python `expected_checksum.split(':', 1)` unpacked into two parts;
`none` models the unpacking `ValueError` when there is no colon. -/
def splitColon1 (s : String) : Option (String × String) :=
  match splitColonAux s.toList with
  | some (a, b) => some (String.mk a, String.mk b)
  | none => none

/-- Embedding of `calculate_checksum` (src/psvc/utils/checksum.py,
lines 8-29).  The digest primitive (`hashlib`) is the parameter
`hashFn algorithm bytes`; a missing file raises `FileNotFoundError`
(`content = none`). -/
def calculate_checksum (hashFn : String → List Nat → String)
    (content : Option (List Nat)) (algorithm : String) :
    Except String String :=
  match content with
  | none => .error "FileNotFoundError"
  | some bytes => .ok (algorithm ++ ":" ++ hashFn algorithm bytes)

/-- Embedding of `verify_checksum` (src/psvc/utils/checksum.py, lines
32-52): split the expected value on the first colon (no colon →
`ValueError`), recompute with that algorithm, compare the full
"algo:hex" strings. -/
def verify_checksum (hashFn : String → List Nat → String)
    (content : Option (List Nat)) (expected : String) :
    Except String Bool :=
  match splitColon1 expected with
  | none => .error "invalid checksum format"
  | some (algorithm, _) =>
    (calculate_checksum hashFn content algorithm).map
      (fun actual => actual == expected)

theorem splitColonAux_sound {l a b : List Char}
    (h : splitColonAux l = some (a, b)) : l = a ++ ':' :: b := by
  induction l generalizing a b with
  | nil => simp [splitColonAux] at h
  | cons c rest ih =>
    unfold splitColonAux at h
    by_cases hc : c = ':'
    · rw [if_pos hc] at h
      rw [Option.some.injEq, Prod.mk.injEq] at h
      rw [← h.1, ← h.2, hc]
      rfl
    · rw [if_neg hc] at h
      cases hr : splitColonAux rest with
      | none => rw [hr] at h; exact absurd h (by simp)
      | some p =>
        obtain ⟨a', b'⟩ := p
        rw [hr] at h
        rw [Option.some.injEq, Prod.mk.injEq] at h
        rw [← h.1, ← h.2]
        rw [List.cons_append]
        exact congrArg (c :: ·) (ih hr)

theorem splitColon1_sound {s A B : String}
    (h : splitColon1 s = some (A, B)) :
    s.toList = A.toList ++ ':' :: B.toList := by
  unfold splitColon1 at h
  cases hr : splitColonAux s.toList with
  | none => rw [hr] at h; exact absurd h (by simp)
  | some p =>
    obtain ⟨a, b⟩ := p
    rw [hr] at h
    rw [Option.some.injEq, Prod.mk.injEq] at h
    have ha : A.toList = a := by rw [← h.1]; rfl
    have hb : B.toList = b := by rw [← h.2]; rfl
    rw [ha, hb]
    exact splitColonAux_sound hr

theorem checksum_compare_iff (hashFn : String → List Nat → String)
    {cs A R : String} (bytes : List Nat)
    (h : splitColon1 cs = some (A, R)) :
    ((A ++ ":" ++ hashFn A bytes) == cs) = true ↔ hashFn A bytes = R := by
  have hs : cs.data = A.data ++ ':' :: R.data := splitColon1_sound h
  rw [beq_iff_eq]
  constructor
  · intro he
    have hdata := congrArg String.data he
    simp only [String.data_append] at hdata
    rw [List.append_assoc] at hdata
    have hconv : A.data ++ ':' :: (hashFn A bytes).data =
        A.data ++ ':' :: R.data := by
      rw [← hs]
      exact hdata
    have hcc := List.append_cancel_left hconv
    rw [List.cons.injEq] at hcc
    exact String.ext hcc.2
  · intro he
    rw [he]
    apply String.ext
    simp only [String.data_append]
    rw [List.append_assoc, hs]
    rfl

/-- The verification performed after each received file in
`Updater._cmd_download_start` (src/psvc/release.py, lines 826-836):
first `verify_checksum` (raising `ValueError` on mismatch, or
`FileNotFoundError` from `calculate_checksum` when the file is absent),
then `os.path.getsize` compared with the declared size (raising
`ValueError` on mismatch).  `received` is the on-disk content of the
file after `recv_file` (`none` when no file was created). -/
def verifyReceived (hashFn : String → List Nat → String)
    (received : Option (List Nat)) (entry : FileEntry) :
    Except String Unit :=
  match verify_checksum hashFn received entry.checksum with
  | .error e => .error e
  | .ok false => .error ("checksum verification failed: " ++ entry.path)
  | .ok true =>
    match received with
    | none => .error "FileNotFoundError"
    | some bytes =>
      if bytes.length ≠ entry.size then
        .error ("file size mismatch: " ++ entry.path)
      else .ok ()

/-- One iteration of the per-file loop of `_cmd_download_start`
(src/psvc/release.py, lines 809-845): `recv_file` leaves `received` at
the entry's path in the stage (overwriting any previous content), the
file is verified, and on any exception the partial file is removed from
the stage (`if os.path.exists: os.remove`) before the exception
propagates.  Returns the propagated error (if any) and the stage
contents, as a path-to-bytes association list. -/
def downloadFileStep (hashFn : String → List Nat → String)
    (stage : List (String × List Nat)) (entry : FileEntry)
    (received : Option (List Nat)) :
    Option String × List (String × List Nat) :=
  let stage1 := match received with
    | some bytes =>
      (entry.path, bytes) :: stage.filter (fun kv => !(kv.1 == entry.path))
    | none => stage
  match verifyReceived hashFn received entry with
  | .ok _ => (none, stage1)
  | .error e => (some e, stage1.filter (fun kv => !(kv.1 == entry.path)))

theorem verifyReceived_mismatch (hashFn : String → List Nat → String)
    (entry : FileEntry) (bytes : List Nat) {algorithm rest : String}
    (h : splitColon1 entry.checksum = some (algorithm, rest))
    (hmis : hashFn algorithm bytes ≠ rest ∨ bytes.length ≠ entry.size) :
    ∃ e, verifyReceived hashFn (some bytes) entry = .error e := by
  have hver : verify_checksum hashFn (some bytes) entry.checksum =
      .ok ((algorithm ++ ":" ++ hashFn algorithm bytes) == entry.checksum) := by
    unfold verify_checksum
    rw [h]
    rfl
  have hiff := checksum_compare_iff hashFn bytes h
  unfold verifyReceived
  rw [hver]
  cases hbv : ((algorithm ++ ":" ++ hashFn algorithm bytes) ==
      entry.checksum) with
  | false => exact ⟨_, rfl⟩
  | true =>
    have heq := hiff.mp hbv
    rcases hmis with hm | hm
    · exact absurd heq hm
    · dsimp only
      rw [if_pos hm]
      exact ⟨_, rfl⟩

theorem verifyReceived_ok (hashFn : String → List Nat → String)
    (entry : FileEntry) (bytes : List Nat) {algorithm rest : String}
    (h : splitColon1 entry.checksum = some (algorithm, rest))
    (hhash : hashFn algorithm bytes = rest)
    (hsize : bytes.length = entry.size) :
    verifyReceived hashFn (some bytes) entry = .ok () := by
  have hver : verify_checksum hashFn (some bytes) entry.checksum =
      .ok ((algorithm ++ ":" ++ hashFn algorithm bytes) == entry.checksum) := by
    unfold verify_checksum
    rw [h]
    rfl
  have hiff := checksum_compare_iff hashFn bytes h
  unfold verifyReceived
  rw [hver]
  cases hbv : ((algorithm ++ ":" ++ hashFn algorithm bytes) ==
      entry.checksum) with
  | false =>
    rw [Bool.eq_false_iff] at hbv
    exact absurd (hiff.mpr hhash) hbv
  | true =>
    dsimp only
    rw [if_neg (by rw [hsize]; exact fun hc => hc rfl)]

/-- Claim C4: for every file received during `__download_start__`
handling, the Updater verifies that the file's on-disk size equals the
manifest entry's declared size and that its checksum matches the
manifest entry's checksum; on either mismatch the partially written
file is deleted from the stage directory and the error is propagated,
while a file passing both checks is kept and no error is raised. -/
theorem C4_download_start_verification :
    ∀ (hashFn : String → List Nat → String)
      (stage : List (String × List Nat)) (entry : FileEntry)
      (bytes : List Nat) (algorithm rest : String),
      splitColon1 entry.checksum = some (algorithm, rest) →
      ((hashFn algorithm bytes ≠ rest ∨ bytes.length ≠ entry.size) →
        (downloadFileStep hashFn stage entry (some bytes)).1.isSome = true ∧
        ∀ content, (entry.path, content) ∉
          (downloadFileStep hashFn stage entry (some bytes)).2) ∧
      (hashFn algorithm bytes = rest → bytes.length = entry.size →
        (downloadFileStep hashFn stage entry (some bytes)).1 = none ∧
        (entry.path, bytes) ∈
          (downloadFileStep hashFn stage entry (some bytes)).2) := by
  intro hashFn stage entry bytes algorithm rest h
  constructor
  · intro hmis
    obtain ⟨e, he⟩ := verifyReceived_mismatch hashFn entry bytes h hmis
    have hres : downloadFileStep hashFn stage entry (some bytes) =
        (some e, ((entry.path, bytes) ::
            stage.filter (fun kv => !(kv.1 == entry.path))).filter
          (fun kv => !(kv.1 == entry.path))) := by
      unfold downloadFileStep
      dsimp only
      rw [he]
    rw [hres]
    constructor
    · rfl
    · intro content hm
      have := (List.mem_filter.mp hm).2
      simp at this
  · intro hhash hsize
    have he := verifyReceived_ok hashFn entry bytes h hhash hsize
    have hres : downloadFileStep hashFn stage entry (some bytes) =
        (none, (entry.path, bytes) ::
          stage.filter (fun kv => !(kv.1 == entry.path))) := by
      unfold downloadFileStep
      dsimp only
      rw [he]
    rw [hres]
    exact ⟨rfl, List.mem_cons_self _ _⟩

/-- Witness for C4: the theorem applied at a concrete manifest entry,
with a digest primitive that hashes to "aa" regardless of input, a
wrong-sized received file (error, file removed) and a matching one
(kept, no error). -/
theorem C4_witness :
    ((downloadFileStep (fun _ _ => "aa") [] ⟨"app.bin", 3, "sha256:aa"⟩
        (some [1, 2])).1.isSome = true ∧
      ∀ content, ("app.bin", content) ∉
        (downloadFileStep (fun _ _ => "aa") [] ⟨"app.bin", 3, "sha256:aa"⟩
          (some [1, 2])).2) ∧
    ((downloadFileStep (fun _ _ => "aa") [] ⟨"app.bin", 3, "sha256:aa"⟩
        (some [1, 2, 3])).1 = none ∧
      ("app.bin", [1, 2, 3]) ∈
        (downloadFileStep (fun _ _ => "aa") [] ⟨"app.bin", 3, "sha256:aa"⟩
          (some [1, 2, 3])).2) :=
  ⟨(C4_download_start_verification (fun _ _ => "aa") [] ⟨"app.bin", 3, "sha256:aa"⟩
      [1, 2] "sha256" "aa" (by decide)).1 (Or.inr (by decide)),
   (C4_download_start_verification (fun _ _ => "aa") [] ⟨"app.bin", 3, "sha256:aa"⟩
      [1, 2, 3] "sha256" "aa" (by decide)).2 rfl (by decide)⟩

/-! ## main.py : `Service._service` (C8) -/

/-- Observable events of `Service._service`: `_set_status` calls and
the user hooks `init` / `run` / `destroy`. -/
inductive SEv where
  | status (s : String)
  | initCall
  | runCall
  | destroyCall
  deriving DecidableEq, Repr

/-- Outcome of `await self.init()`: return normally, or raise (both the
`asyncio.CancelledError` and the `Exception` handlers call
`self.stop()`, i.e. set `_sigterm`). -/
inductive InitOut where
  | ok
  | raises
  deriving DecidableEq, Repr

/-- Outcome of one `await self.run()` iteration: return normally, set
the stop flag (via `self.stop()` or SIGTERM during the call), or raise
(`CancelledError` passes, other exceptions are logged; both leave the
try block). -/
inductive RunOut where
  | normal
  | setsStop
  | raises
  deriving DecidableEq, Repr

/-- The `while not self._sigterm.is_set(): await self.run()` loop of
`_service`, driven by the outcomes of successive `run()` calls: each
iteration emits one `runCall`; a stop-setting iteration ends the loop
at the next check; a raising iteration leaves the try block.  The
second component is false when the outcome list ran out with the loop
still going (the trace was cut). -/
def runLoop : List RunOut → List SEv × Bool
  | [] => ([], false)
  | o :: rest =>
    match o with
    | .normal =>
      let r := runLoop rest
      (.runCall :: r.1, r.2)
    | .setsStop => ([.runCall], true)
    | .raises => ([.runCall], true)

/-- Embedding of `Service._service` (src/psvc/main.py, lines 1033-1070)
as its event trace: `_set_status('Initting')`, `init()` (a raising init
sets the stop flag); if the stop flag is unset, `_set_status('Running')`
and the run loop; in the `finally`: `_set_status('Stopping')`,
`destroy()` (failures logged only, modelled by `destroyRaises` not
affecting the trace), `_set_status('Stopped')`.  `initSetsStop` models
the stop flag becoming set during a non-raising `init()` (SIGTERM, or
user code calling `stop()`).  The second component is false when the
run loop was still in progress when the trace was cut. -/
def serviceTrace (initOut : InitOut) (initSetsStop : Bool)
    (runOuts : List RunOut) (destroyRaises : Bool) : List SEv × Bool :=
  let stopSet : Bool := match initOut with
    | .raises => true
    | .ok => initSetsStop
  if stopSet then
    ([.status "Initting", .initCall, .status "Stopping", .destroyCall,
      .status "Stopped"], true)
  else
    let r := runLoop runOuts
    if r.2 then
      ([.status "Initting", .initCall, .status "Running"] ++ r.1 ++
        [.status "Stopping", .destroyCall, .status "Stopped"], true)
    else
      ([.status "Initting", .initCall, .status "Running"] ++ r.1, false)

theorem runLoop_replicate (o : RunOut) (ho : o ≠ RunOut.normal) :
    ∀ (n : Nat) (tail : List RunOut),
      runLoop (List.replicate n .normal ++ o :: tail) =
        (List.replicate (n + 1) SEv.runCall, true) := by
  intro n
  induction n with
  | zero =>
    intro tail
    cases o with
    | normal => exact absurd rfl ho
    | setsStop => rfl
    | raises => rfl
  | succ n ih =>
    intro tail
    rw [List.replicate_succ, List.cons_append]
    unfold runLoop
    dsimp only
    rw [ih tail]
    rw [List.replicate_succ]
    rfl

/-- Claim C8 counterexample: when `init()` returns normally but the
stop flag was set during it (SIGTERM, or user code calling `stop()`),
the service never sets status Running and never calls `run()`, yet
`init` did not raise.  This refutes the claim that status becomes
Running whenever `init()` does not raise. -/
theorem C8_counterexample :
    (serviceTrace .ok true [] false).1 =
      [.status "Initting", .initCall, .status "Stopping", .destroyCall,
       .status "Stopped"] ∧
    SEv.status "Running" ∉ (serviceTrace .ok true [] false).1 ∧
    SEv.runCall ∉ (serviceTrace .ok true [] false).1 := by decide

/-- Claim C8 (amended): the main service task sets status Initting and
calls `init()`; if `init()` raises, the stop flag is set and `run()` is
never entered (and Running is never set); otherwise, provided the stop
flag was not set during init, status becomes Running and `run()` is
called repeatedly until an iteration sets the stop flag (or raises);
and in every terminating execution the trace ends with status Stopping,
a `destroy()` call, and status Stopped — for either value of the
destroy-raises flag, since a `destroy()` failure is only logged. -/
theorem C8_service_lifecycle_amended :
    (∀ (i : InitOut) (s : Bool) (runs : List RunOut) (d : Bool),
        ((serviceTrace i s runs d).1).take 2 =
          [SEv.status "Initting", SEv.initCall]) ∧
    (∀ (s : Bool) (runs : List RunOut) (d : Bool),
        (serviceTrace .raises s runs d).1 =
          [.status "Initting", .initCall, .status "Stopping", .destroyCall,
           .status "Stopped"] ∧
        SEv.runCall ∉ (serviceTrace .raises s runs d).1 ∧
        SEv.status "Running" ∉ (serviceTrace .raises s runs d).1) ∧
    (∀ (n : Nat) (tail : List RunOut) (o : RunOut) (d : Bool),
        o ≠ RunOut.normal →
        (serviceTrace .ok false (List.replicate n .normal ++ o :: tail) d).1 =
          [.status "Initting", .initCall, .status "Running"] ++
            List.replicate (n + 1) SEv.runCall ++
            [.status "Stopping", .destroyCall, .status "Stopped"]) ∧
    (∀ (i : InitOut) (s : Bool) (runs : List RunOut) (d : Bool),
        (serviceTrace i s runs d).2 = true →
        ∃ pre, (serviceTrace i s runs d).1 =
          pre ++ [SEv.status "Stopping", SEv.destroyCall,
            SEv.status "Stopped"]) := by
  refine ⟨?_, ?_, ?_, ?_⟩
  · intro i s runs d
    unfold serviceTrace
    cases i with
    | raises => rfl
    | ok =>
      cases s with
      | true => rfl
      | false =>
        dsimp only
        rw [if_neg (show ¬(false = true) by simp)]
        split
        · rfl
        · rfl
  · intro s runs d
    refine ⟨rfl, ?_, ?_⟩
    · show SEv.runCall ∉ [SEv.status "Initting", SEv.initCall,
        SEv.status "Stopping", SEv.destroyCall, SEv.status "Stopped"]
      decide
    · show SEv.status "Running" ∉ [SEv.status "Initting", SEv.initCall,
        SEv.status "Stopping", SEv.destroyCall, SEv.status "Stopped"]
      decide
  · intro n tail o d ho
    unfold serviceTrace
    dsimp only
    rw [runLoop_replicate o ho n tail]
    rfl
  · intro i s runs d hterm
    unfold serviceTrace at hterm ⊢
    cases i with
    | raises => exact ⟨[SEv.status "Initting", SEv.initCall], rfl⟩
    | ok =>
      cases s with
      | true => exact ⟨[SEv.status "Initting", SEv.initCall], rfl⟩
      | false =>
        dsimp only at hterm ⊢
        rw [if_neg (show ¬(false = true) by simp)] at hterm ⊢
        cases hr : (runLoop runs).2 with
        | true =>
          rw [if_pos rfl]
          exact ⟨[SEv.status "Initting", SEv.initCall,
            SEv.status "Running"] ++ (runLoop runs).1, rfl⟩
        | false =>
          rw [hr] at hterm
          rw [if_neg (show ¬(false = true) by simp)] at hterm
          simp at hterm

/-- Witness for C8: the amended theorem applied to a service whose
`init` succeeds and whose third `run()` call sets the stop flag, with
`destroy()` raising. -/
theorem C8_witness :
    (serviceTrace .ok false
        (List.replicate 2 .normal ++ RunOut.setsStop :: []) true).1 =
      [SEv.status "Initting", SEv.initCall, SEv.status "Running"] ++
        List.replicate 3 SEv.runCall ++
        [SEv.status "Stopping", SEv.destroyCall, SEv.status "Stopped"] :=
  C8_service_lifecycle_amended.2.2.1 2 [] RunOut.setsStop true (by decide)
